import Mathlib

/-!
Shallow embedding of SpeedyMaskerRs (src/lib.rs, src/main.rs): a password
wordlist analyzer that classifies words into character-class masks,
aggregates mask occurrence counts, computes per-mask keyspace sizes with an
overflow-guarding ceiling, ranks masks by a cost score, and greedily selects
a subset of masks fitting a space budget.

Modelling conventions:
- Rust `usize` values become `Nat`; the overflow guard in `compute_mask_size`
  keeps every intermediate product at or below the caller's ceiling, so the
  `Nat` arithmetic coincides exactly with the `usize` arithmetic.
- A mask is a list of class symbols (`MaskSym`), mirroring the Rust mask
  string over the characters l, u, d, s; the classifier only ever emits
  those four characters, and the size computation traps on any other
  character, so the symbol alphabet is exactly this four-element type.
- The `HashMap<String, usize>` of mask counts becomes an association list
  `MaskMap` updated in first-occurrence order.
- The `f64` cost `count / size` is modelled as the exact rational
  `(count : Rat) / (size : Rat)`. Conversion of a `usize` to `f64` is finite
  and rounding is monotone, so every ordering fact proved of the rational
  costs also holds of the floating-point costs the code compares.
- `BufRead::lines()` becomes a list of `Except IoError word` values; file
  opening is outside the embedded pipeline.
-/

/-- One symbol of a mask: lowercase, uppercase, digit or special class.
Mirrors the mask characters l, u, d, s that `generate_mask` pushes. -/
inductive MaskSym where
  | l
  | u
  | d
  | s
deriving DecidableEq, Repr

/-- A mask is a sequence of class symbols, one per word position. -/
abbrev Mask := List MaskSym

/-- Stand-in for `std::io::Error` values produced by the line source. -/
structure IoError where
  code : Nat
deriving DecidableEq, Repr

/-- Mirrors `enum MaskError` of src/lib.rs (line 13). -/
inductive MaskError where
  | InvalidCharacter (c : Char)
deriving DecidableEq, Repr

/-- Mirrors `const SPECIAL_CHARSET` of src/lib.rs (line 9), the 33-character
string of special symbols, given here by ASCII codes in the same order. -/
def SPECIAL_CHARSET : List Char :=
  [33, 32, 34, 35, 36, 37, 38, 39, 40, 41, 42, 43, 44, 45, 46, 47, 58, 59,
   60, 61, 62, 63, 64, 91, 92, 93, 94, 95, 96, 123, 124, 125, 126].map Char.ofNat

/-- Mirrors Rust `char::is_ascii_lowercase`. -/
def is_ascii_lowercase (c : Char) : Bool := 97 ≤ c.toNat && c.toNat ≤ 122

/-- Mirrors Rust `char::is_ascii_uppercase`. -/
def is_ascii_uppercase (c : Char) : Bool := 65 ≤ c.toNat && c.toNat ≤ 90

/-- Mirrors Rust `char::is_ascii_digit`. -/
def is_ascii_digit (c : Char) : Bool := 48 ≤ c.toNat && c.toNat ≤ 57

/-- The per-character classification chain inside the loop of
`generate_mask` (src/lib.rs lines 44-55), factored out: the four guards in
source order, `none` for a character outside all four classes. -/
def classifyChar (c : Char) : Option MaskSym :=
  if is_ascii_lowercase c then some MaskSym.l
  else if is_ascii_uppercase c then some MaskSym.u
  else if is_ascii_digit c then some MaskSym.d
  else if SPECIAL_CHARSET.contains c then some MaskSym.s
  else none

/-- Mirrors `generate_mask` (src/lib.rs lines 41-59): walk the word's
characters in order, pushing each character's class symbol; on the first
unclassifiable character return `InvalidCharacter` immediately. -/
def generate_mask : List Char → Except MaskError Mask
  | [] => Except.ok []
  | c :: rest =>
    match classifyChar c with
    | some sym =>
      match generate_mask rest with
      | Except.ok m => Except.ok (sym :: m)
      | Except.error e => Except.error e
    | none => Except.error (MaskError.InvalidCharacter c)

/-- The per-class cardinality from the `match` in `compute_mask_size`
(src/lib.rs lines 65-71). `SPECIAL_CHARSET.len()` is the byte length 33. -/
def multiplier : MaskSym → Nat
  | MaskSym.l => 26
  | MaskSym.u => 26
  | MaskSym.d => 10
  | MaskSym.s => SPECIAL_CHARSET.length

/-- The loop of `compute_mask_size` (src/lib.rs lines 64-78): accumulator
`result`, overflow guard `maximum_size / multiplier < result` before each
multiplication. -/
def computeSizeAux (maximum_size : Nat) : Mask → Nat → Option Nat
  | [], result => some result
  | c :: rest, result =>
    if maximum_size / multiplier c < result then none
    else computeSizeAux maximum_size rest (result * multiplier c)

/-- Mirrors `compute_mask_size` (src/lib.rs lines 61-81): the accumulator
starts at 1. -/
def compute_mask_size (mask : Mask) (maximum_size : Nat) : Option Nat :=
  computeSizeAux maximum_size mask 1

/-- The exact mathematical product of the per-position class cardinalities:
the "true size" of the keyspace a mask denotes. -/
def mask_product (mask : Mask) : Nat := (mask.map multiplier).prod

/-- Mirrors `compute_mask_cost` (src/lib.rs lines 83-85); the `f64` ratio
`occurrences_count / mask_size` is modelled as the exact rational quotient
(see the header comment). `mkRat` is the rational `occurrences_count /
mask_size`; the lemma `compute_mask_cost_eq_div` below restates it as cast
division. -/
def compute_mask_cost (mask_size : Nat) (occurrences_count : Nat) : Rat :=
  mkRat occurrences_count mask_size

/-- Modelled from IEEE 754: `(num as f64) / (den as f64)` for `usize` values
`num`, `den` is NaN exactly when both operands are zero — `usize` to `f64`
conversion never yields NaN or an infinity, and a finite quotient is NaN only
in the 0/0 case. -/
def f64_div_is_nan (num den : Nat) : Prop := num = 0 ∧ den = 0

/-- The `HashMap<String, usize>` of mask counts, as an association list. -/
abbrev MaskMap := List (Mask × Nat)

/-- First-match lookup in a `MaskMap`. -/
def lookup : MaskMap → Mask → Option Nat
  | [], _ => none
  | (k, v) :: rest, mask => if k = mask then some v else lookup rest mask

/-- The count recorded for a mask, zero when absent. -/
def countOf (m : MaskMap) (mask : Mask) : Nat := (lookup m mask).getD 0

/-- Mirrors `*masks_counts.entry(mask).or_insert(0) += 1` (src/lib.rs
line 105): bump an existing entry, or append a fresh entry with count 1. -/
def incrMask : MaskMap → Mask → MaskMap
  | [], mask => [(mask, 1)]
  | (k, v) :: rest, mask =>
    if k = mask then (k, v + 1) :: rest else (k, v) :: incrMask rest mask

/-- One loop iteration of `generate_masks_from_bufreader` for a successfully
read word (src/lib.rs lines 99-106): classification failure skips the word;
an empty mask is excluded; otherwise the mask's count is incremented. -/
def aggWord (acc : MaskMap) (word : List Char) : MaskMap :=
  match generate_mask word with
  | Except.error _ => acc
  | Except.ok mask => if mask.isEmpty then acc else incrMask acc mask

/-- The line loop of `generate_masks_from_bufreader` (src/lib.rs lines
93-107): a read error is returned immediately; otherwise the word is folded
into the accumulator and the walk continues. -/
def generateMasksAux : MaskMap → List (Except IoError (List Char)) → Except IoError MaskMap
  | acc, [] => Except.ok acc
  | acc, line :: rest =>
    match line with
    | Except.error e => Except.error e
    | Except.ok word => generateMasksAux (aggWord acc word) rest

/-- Mirrors `generate_masks_from_bufreader` (src/lib.rs lines 87-110); the
`BufRead` line source is modelled as the list of its `io::Result` lines. -/
def generate_masks_from_bufreader (lines : List (Except IoError (List Char))) :
    Except IoError MaskMap :=
  generateMasksAux [] lines

/-- Mirrors `struct ComputedMask` (src/lib.rs lines 27-33). -/
structure ComputedMask where
  mask : Mask
  size : Nat
  count : Nat
  cost : Rat
deriving DecidableEq, Repr

/-- The ordering `sort_by(|mask_0, mask_1| mask_1.cost.partial_cmp(&mask_0.cost))`
realizes (src/lib.rs line 129): `a` sorts at or before `b` when `a`'s cost is
at least `b`'s, i.e. descending by cost. -/
def costGe (a b : ComputedMask) : Prop := b.cost ≤ a.cost

instance : DecidableRel costGe := fun a b => inferInstanceAs (Decidable (b.cost ≤ a.cost))

instance : IsTotal ComputedMask costGe := ⟨fun a b => le_total b.cost a.cost⟩

instance : IsTrans ComputedMask costGe := ⟨fun _ _ _ h1 h2 => le_trans h2 h1⟩

/-- The loop body of `sort_masks` (src/lib.rs lines 115-127) for one map
entry: `none` when the mask's size exceeds the ceiling (the entry is
skipped), otherwise the `ComputedMask` record pushed onto the vector. -/
def sizeEntry (maximum_size : Nat) (p : Mask × Nat) : Option ComputedMask :=
  match compute_mask_size p.1 maximum_size with
  | none => none
  | some mask_size =>
    some ⟨p.1, mask_size, p.2, compute_mask_cost mask_size p.2⟩

/-- Mirrors `sort_masks` (src/lib.rs lines 112-131): build a `ComputedMask`
for each map entry whose size survives the ceiling (`sizeEntry` is the loop
body of lines 115-127), then stable-sort descending by cost (Rust's stable
`sort_by` is modelled by the stable `insertionSort`). -/
def sort_masks (masks_counts : MaskMap) (maximum_size : Nat) : List ComputedMask :=
  (masks_counts.filterMap (sizeEntry maximum_size)).insertionSort costGe

/-- The selection closure of `parse_file` (src/lib.rs lines 143-149): the
captured `used_space` is threaded explicitly. The guard is the source's
`mask.size <= maximum_size - used_space` with `Nat` truncated subtraction,
which coincides with `usize` subtraction as long as
`used_space ≤ maximum_size` (an invariant proved below). -/
def budget_filter (maximum_size : Nat) : List ComputedMask → Nat → List ComputedMask × Nat
  | [], used_space => ([], used_space)
  | cm :: rest, used_space =>
    if cm.size ≤ maximum_size - used_space then
      (cm :: (budget_filter maximum_size rest (used_space + cm.size)).1,
       (budget_filter maximum_size rest (used_space + cm.size)).2)
    else
      budget_filter maximum_size rest used_space

/-- `budget_filter` with an explicit underflow check: `none` models the
`usize` underflow panic that `maximum_size - used_space` would raise in a
debug build when `used_space > maximum_size`. -/
def budget_filter_safe (maximum_size : Nat) :
    List ComputedMask → Nat → Option (List ComputedMask × Nat)
  | [], used_space => some ([], used_space)
  | cm :: rest, used_space =>
    if maximum_size < used_space then none
    else if cm.size ≤ maximum_size - used_space then
      Option.map (fun r => (cm :: r.1, r.2))
        (budget_filter_safe maximum_size rest (used_space + cm.size))
    else
      budget_filter_safe maximum_size rest used_space

/-- Modelled from the spec (section 4.4 BudgetSelector), for comparison with
the code's `budget_filter`: walk the ranked sequence once with a running
`used` total starting at 0; append a candidate and add its size exactly when
`used + candidate.size ≤ budget`, otherwise skip it and continue. -/
def greedySelectSpec (budget : Nat) : List ComputedMask → Nat → List ComputedMask × Nat
  | [], used => ([], used)
  | cm :: rest, used =>
    if used + cm.size ≤ budget then
      (cm :: (greedySelectSpec budget rest (used + cm.size)).1,
       (greedySelectSpec budget rest (used + cm.size)).2)
    else
      greedySelectSpec budget rest used

/-- Mirrors `parse_file` (src/lib.rs lines 133-153) from the point the file
is open: aggregate the lines, rank the masks, then filter greedily under the
budget, returning the selection and the space it uses. -/
def parse_file (lines : List (Except IoError (List Char))) (maximum_size : Nat) :
    Except IoError (List ComputedMask × Nat) :=
  match generate_masks_from_bufreader lines with
  | Except.error e => Except.error e
  | Except.ok mask_map =>
    Except.ok (budget_filter maximum_size (sort_masks mask_map maximum_size) 0)

deriving instance DecidableEq for Except

/-- A character is in the four-class alphabet the classifier accepts:
ASCII lowercase, ASCII uppercase, ASCII digit, or a member of
`SPECIAL_CHARSET` — the guards of src/lib.rs lines 45-51 disjoined. -/
def in_alphabet (c : Char) : Bool :=
  is_ascii_lowercase c || is_ascii_uppercase c || is_ascii_digit c ||
    SPECIAL_CHARSET.contains c

/-- The mask of the test word "HelloFriend" (src/lib.rs tests): the string
"ullllulllll" as a symbol list. -/
def exampleMask : Mask :=
  [MaskSym.u, MaskSym.l, MaskSym.l, MaskSym.l, MaskSym.l, MaskSym.u,
   MaskSym.l, MaskSym.l, MaskSym.l, MaskSym.l, MaskSym.l]

/-! Helper lemmas about the size computation. -/

theorem compute_mask_cost_eq_div (mask_size occurrences_count : Nat) :
    compute_mask_cost mask_size occurrences_count =
      (occurrences_count : Rat) / (mask_size : Rat) := by
  unfold compute_mask_cost
  rw [Rat.mkRat_eq_div]
  norm_num

theorem multiplier_pos (c : MaskSym) : 1 ≤ multiplier c := by
  cases c <;> decide

theorem mask_product_pos (mask : Mask) : 1 ≤ mask_product mask := by
  induction mask with
  | nil => decide
  | cons c rest ih =>
    have hc := multiplier_pos c
    calc 1 ≤ 1 * 1 := by omega
    _ ≤ multiplier c * mask_product rest := Nat.mul_le_mul hc ih
    _ = mask_product (c :: rest) := by simp [mask_product]

theorem computeSizeAux_spec (M : Nat) :
    ∀ (l : Mask) (r : Nat), 1 ≤ r → l ≠ [] →
      computeSizeAux M l r =
        if r * mask_product l ≤ M then some (r * mask_product l) else none := by
  intro l
  induction l with
  | nil => intro r _ hne; exact absurd rfl hne
  | cons c rest ih =>
    intro r hr _
    have hm := multiplier_pos c
    have hguard : (M / multiplier c < r) ↔ M < r * multiplier c :=
      Nat.div_lt_iff_lt_mul (by omega)
    have hprod : mask_product (c :: rest) = multiplier c * mask_product rest := by
      simp [mask_product]
    by_cases hg : M / multiplier c < r
    · have hlt : M < r * multiplier c := hguard.mp hg
      have hrest := mask_product_pos rest
      have : M < r * mask_product (c :: rest) := by
        calc M < r * multiplier c := hlt
        _ ≤ r * multiplier c * mask_product rest :=
            Nat.le_mul_of_pos_right _ (by omega)
        _ = r * mask_product (c :: rest) := by rw [hprod, Nat.mul_assoc]
      simp only [computeSizeAux, hg, if_pos]
      rw [if_neg (by omega)]
    · have hle : r * multiplier c ≤ M := by
        have := hguard.not; omega
      have hr2 : 1 ≤ r * multiplier c := by
        simpa using Nat.mul_le_mul hr hm
      simp only [computeSizeAux]
      rw [if_neg hg]
      cases hrest : rest with
      | nil =>
        simp [computeSizeAux, mask_product, hle]
      | cons c2 rest2 =>
        rw [← hrest, ih (r * multiplier c) hr2 (by simp [hrest]), hprod, Nat.mul_assoc]

theorem compute_mask_size_exact_form (mask : Mask) (M : Nat)
    (h : mask ≠ [] ∨ 1 ≤ M) :
    compute_mask_size mask M =
      if mask_product mask ≤ M then some (mask_product mask) else none := by
  cases hm : mask with
  | nil =>
    have hM : 1 ≤ M := by
      rcases h with h | h
      · exact absurd hm h
      · exact h
    simp [compute_mask_size, computeSizeAux, mask_product, hM]
  | cons c rest =>
    have := computeSizeAux_spec M (c :: rest) 1 (by omega) (by simp)
    simpa [compute_mask_size, Nat.one_mul] using this

theorem computeSizeAux_init_le (M : Nat) :
    ∀ (l : Mask) (r s : Nat), computeSizeAux M l r = some s → r ≤ s := by
  intro l
  induction l with
  | nil => intro r s h; simp [computeSizeAux] at h; omega
  | cons c rest ih =>
    intro r s h
    simp only [computeSizeAux] at h
    by_cases hg : M / multiplier c < r
    · simp [hg] at h
    · rw [if_neg hg] at h
      have := ih (r * multiplier c) s h
      have hm := multiplier_pos c
      calc r = r * 1 := by omega
      _ ≤ r * multiplier c := Nat.mul_le_mul_left r hm
      _ ≤ s := this

theorem compute_mask_size_pos {mask : Mask} {M s : Nat}
    (h : compute_mask_size mask M = some s) : 1 ≤ s :=
  computeSizeAux_init_le M mask 1 s h

theorem compute_mask_size_le_ceiling {mask : Mask} {M s : Nat}
    (hne : mask ≠ []) (h : compute_mask_size mask M = some s) : s ≤ M := by
  rw [compute_mask_size_exact_form mask M (Or.inl hne)] at h
  by_cases hle : mask_product mask ≤ M
  · rw [if_pos hle] at h
    cases h
    exact hle
  · rw [if_neg hle] at h
    cases h

/-! Helper lemmas about the classifier. -/

theorem classifyChar_eq_none_iff (c : Char) :
    classifyChar c = none ↔ in_alphabet c = false := by
  unfold classifyChar in_alphabet
  split_ifs <;> simp_all

theorem classifyChar_isSome_of_in_alphabet {c : Char} (h : in_alphabet c = true) :
    ∃ sym, classifyChar c = some sym := by
  cases hc : classifyChar c with
  | some sym => exact ⟨sym, rfl⟩
  | none =>
    rw [classifyChar_eq_none_iff] at hc
    rw [hc] at h
    cases h

/-! Helper lemmas about the aggregator's count map. -/

theorem lookup_incrMask_self (m : MaskMap) (k : Mask) :
    lookup (incrMask m k) k = some (countOf m k + 1) := by
  induction m with
  | nil => simp [incrMask, lookup, countOf]
  | cons p rest ih =>
    obtain ⟨k0, v⟩ := p
    by_cases hk : k0 = k
    · subst hk
      simp [incrMask, lookup, countOf]
    · simp [incrMask, lookup, hk, countOf, ih]

theorem lookup_incrMask_ne (m : MaskMap) (k k' : Mask) (h : k ≠ k') :
    lookup (incrMask m k) k' = lookup m k' := by
  induction m with
  | nil => simp [incrMask, lookup, h]
  | cons p rest ih =>
    obtain ⟨k0, v⟩ := p
    by_cases hk : k0 = k
    · subst hk
      simp [incrMask, lookup, h]
    · simp [incrMask, lookup, hk, ih]

theorem countOf_incrMask_self (m : MaskMap) (k : Mask) :
    countOf (incrMask m k) k = countOf m k + 1 := by
  simp [countOf, lookup_incrMask_self]

theorem countOf_incrMask_ne (m : MaskMap) (k k' : Mask) (h : k ≠ k') :
    countOf (incrMask m k) k' = countOf m k' := by
  simp [countOf, lookup_incrMask_ne m k k' h]

theorem generateMasksAux_ok (words : List (List Char)) :
    ∀ acc, generateMasksAux acc (words.map Except.ok) =
      Except.ok (words.foldl aggWord acc) := by
  induction words with
  | nil => intro acc; simp [generateMasksAux]
  | cons w rest ih => intro acc; simp [generateMasksAux, ih]

theorem countOf_aggWord (acc : MaskMap) (w : List Char) (mask : Mask)
    (h : mask ≠ []) :
    countOf (aggWord acc w) mask =
      countOf acc mask + (if generate_mask w = Except.ok mask then 1 else 0) := by
  cases hg : generate_mask w with
  | error e => simp [aggWord, hg]
  | ok mw =>
    cases mw with
    | nil =>
      have hne : (Except.ok ([] : Mask) : Except MaskError Mask) ≠ Except.ok mask := by
        intro hc
        injection hc with hc2
        exact h hc2.symm
      simp [aggWord, hg, hne]
    | cons sym ms =>
      by_cases hq : (sym :: ms) = mask
      · subst hq
        simp [aggWord, hg, countOf_incrMask_self]
      · have hne : (Except.ok (sym :: ms) : Except MaskError Mask) ≠ Except.ok mask := by
          intro hc
          injection hc with hc2
          exact hq hc2
        simp [aggWord, hg, hne, countOf_incrMask_ne acc (sym :: ms) mask hq]

theorem countOf_foldl (mask : Mask) (h : mask ≠ []) :
    ∀ (words : List (List Char)) (acc : MaskMap),
      countOf (words.foldl aggWord acc) mask =
        countOf acc mask +
          words.countP (fun w => decide (generate_mask w = Except.ok mask)) := by
  intro words
  induction words with
  | nil => intro acc; simp
  | cons w rest ih =>
    intro acc
    simp only [List.foldl_cons]
    rw [ih (aggWord acc w), countOf_aggWord acc w mask h, List.countP_cons]
    by_cases hd : generate_mask w = Except.ok mask
    · simp [hd]
      omega
    · simp [hd]

theorem lookup_nil_aggWord (acc : MaskMap) (w : List Char) :
    lookup (aggWord acc w) [] = lookup acc [] := by
  cases hg : generate_mask w with
  | error e => simp [aggWord, hg]
  | ok mw =>
    cases mw with
    | nil => simp [aggWord, hg]
    | cons sym ms =>
      simp only [aggWord, hg, List.isEmpty_cons, if_neg]
      exact lookup_incrMask_ne acc (sym :: ms) [] (by simp)

theorem lookup_nil_foldl (words : List (List Char)) :
    ∀ acc, lookup (words.foldl aggWord acc) [] = lookup acc [] := by
  induction words with
  | nil => intro acc; rfl
  | cons w rest ih =>
    intro acc
    simp only [List.foldl_cons]
    rw [ih (aggWord acc w), lookup_nil_aggWord]

theorem mem_incrMask {m : MaskMap} {k : Mask} {p : Mask × Nat}
    (h : p ∈ incrMask m k) : p.1 = k ∨ p ∈ m := by
  induction m with
  | nil =>
    simp [incrMask] at h
    simp [h]
  | cons q rest ih =>
    obtain ⟨k0, v⟩ := q
    by_cases hk : k0 = k
    · subst hk
      simp only [incrMask, if_pos rfl] at h
      rcases List.mem_cons.mp h with h | h
      · left; simp [h]
      · right; exact List.mem_cons_of_mem _ h
    · simp only [incrMask, if_neg hk] at h
      rcases List.mem_cons.mp h with h | h
      · right; simp [h]
      · rcases ih h with h2 | h2
        · left; exact h2
        · right; exact List.mem_cons_of_mem _ h2

theorem keys_aggWord {acc : MaskMap} {w : List Char}
    (hacc : ∀ p ∈ acc, p.1 ≠ ([] : Mask)) :
    ∀ p ∈ aggWord acc w, p.1 ≠ ([] : Mask) := by
  intro p hp
  cases hg : generate_mask w with
  | error e =>
    rw [aggWord, hg] at hp
    exact hacc p hp
  | ok mw =>
    cases mw with
    | nil =>
      rw [aggWord, hg] at hp
      exact hacc p hp
    | cons sym ms =>
      rw [aggWord, hg] at hp
      simp only [List.isEmpty_cons, if_neg] at hp
      rcases mem_incrMask hp with h2 | h2
      · rw [h2]; simp
      · exact hacc p h2

theorem keys_foldl (words : List (List Char)) :
    ∀ acc, (∀ p ∈ acc, p.1 ≠ ([] : Mask)) →
      ∀ p ∈ words.foldl aggWord acc, p.1 ≠ ([] : Mask) := by
  induction words with
  | nil => intro acc hacc; exact hacc
  | cons w rest ih =>
    intro acc hacc
    simp only [List.foldl_cons]
    exact ih (aggWord acc w) (keys_aggWord hacc)

/-! Helper lemmas about ranking. -/

theorem mem_sort_masks {m : MaskMap} {M : Nat} {cm : ComputedMask}
    (h : cm ∈ sort_masks m M) :
    ∃ p ∈ m, compute_mask_size p.1 M = some cm.size ∧ cm.mask = p.1 ∧
      cm.count = p.2 := by
  unfold sort_masks at h
  rw [List.mem_insertionSort, List.mem_filterMap] at h
  obtain ⟨p, hp, hf⟩ := h
  cases hcs : compute_mask_size p.1 M with
  | none => rw [sizeEntry, hcs] at hf; cases hf
  | some s =>
    rw [sizeEntry, hcs] at hf
    injection hf with hf
    exact ⟨p, hp, by rw [← hf, hcs], by rw [← hf], by rw [← hf]⟩

theorem sort_masks_size_pos {m : MaskMap} {M : Nat} {cm : ComputedMask}
    (h : cm ∈ sort_masks m M) : 1 ≤ cm.size := by
  obtain ⟨p, _, hcs, _, _⟩ := mem_sort_masks h
  exact compute_mask_size_pos hcs

theorem sort_masks_sorted_pairwise (m : MaskMap) (M : Nat) :
    List.Sorted costGe (sort_masks m M) :=
  List.sorted_insertionSort costGe _

/-! Helper lemmas about the budget selection. -/

theorem budget_filter_sum (M : Nat) :
    ∀ (l : List ComputedMask) (u : Nat),
      (budget_filter M l u).2 =
        u + ((budget_filter M l u).1.map ComputedMask.size).sum := by
  intro l
  induction l with
  | nil => intro u; simp [budget_filter]
  | cons cm rest ih =>
    intro u
    by_cases hc : cm.size ≤ M - u
    · simp only [budget_filter, if_pos hc, List.map_cons, List.sum_cons]
      rw [ih (u + cm.size)]
      omega
    · simp only [budget_filter, if_neg hc]
      exact ih u

theorem budget_filter_used_le (M : Nat) :
    ∀ (l : List ComputedMask) (u : Nat), u ≤ M → (budget_filter M l u).2 ≤ M := by
  intro l
  induction l with
  | nil => intro u hu; exact hu
  | cons cm rest ih =>
    intro u hu
    by_cases hc : cm.size ≤ M - u
    · simp only [budget_filter, if_pos hc]
      exact ih (u + cm.size) (by omega)
    · simp only [budget_filter, if_neg hc]
      exact ih u hu

theorem budget_filter_zero_budget {l : List ComputedMask}
    (h : ∀ cm ∈ l, 1 ≤ cm.size) : budget_filter 0 l 0 = ([], 0) := by
  induction l with
  | nil => rfl
  | cons cm rest ih =>
    have h1 : 1 ≤ cm.size := h cm (List.mem_cons_self cm rest)
    have hc : ¬cm.size ≤ 0 - 0 := by omega
    simp only [budget_filter, if_neg hc]
    exact ih fun x hx => h x (List.mem_cons_of_mem _ hx)

theorem budget_filter_eq_greedy (M : Nat) :
    ∀ (l : List ComputedMask) (u : Nat), u ≤ M →
      budget_filter M l u = greedySelectSpec M l u := by
  intro l
  induction l with
  | nil => intro u _; rfl
  | cons cm rest ih =>
    intro u hu
    have hiff : cm.size ≤ M - u ↔ u + cm.size ≤ M := by omega
    by_cases hc : u + cm.size ≤ M
    · simp only [budget_filter, greedySelectSpec, if_pos (hiff.mpr hc), if_pos hc]
      rw [ih (u + cm.size) hc]
    · simp only [budget_filter, greedySelectSpec,
        if_neg (fun hx => hc (hiff.mp hx)), if_neg hc]
      exact ih u hu

theorem budget_filter_fst_sublist (M : Nat) :
    ∀ (l : List ComputedMask) (u : Nat),
      List.Sublist (budget_filter M l u).1 l := by
  intro l
  induction l with
  | nil => intro u; simp [budget_filter]
  | cons cm rest ih =>
    intro u
    by_cases hc : cm.size ≤ M - u
    · simp only [budget_filter, if_pos hc]
      exact List.Sublist.cons₂ cm (ih (u + cm.size))
    · simp only [budget_filter, if_neg hc]
      exact List.Sublist.cons cm (ih u)

theorem budget_filter_safe_eq (M : Nat) :
    ∀ (l : List ComputedMask) (u : Nat), u ≤ M →
      budget_filter_safe M l u = some (budget_filter M l u) := by
  intro l
  induction l with
  | nil => intro u _; rfl
  | cons cm rest ih =>
    intro u hu
    have hnu : ¬M < u := by omega
    by_cases hc : cm.size ≤ M - u
    · simp only [budget_filter_safe, budget_filter, if_neg hnu, if_pos hc]
      rw [ih (u + cm.size) (by omega)]
      rfl
    · simp only [budget_filter_safe, budget_filter, if_neg hnu, if_neg hc]
      exact ih u hu

theorem parse_file_ok {lines : List (Except IoError (List Char))} {M : Nat}
    {sel : List ComputedMask} {used : Nat}
    (h : parse_file lines M = Except.ok (sel, used)) :
    ∃ m, generate_masks_from_bufreader lines = Except.ok m ∧
      (sel, used) = budget_filter M (sort_masks m M) 0 := by
  cases hg : generate_masks_from_bufreader lines with
  | error e =>
    rw [parse_file, hg] at h
    cases h
  | ok mm =>
    rw [parse_file, hg] at h
    injection h with h2
    exact ⟨mm, rfl, h2.symm⟩

/-! The claims. -/

/-- C1, as frozen, fails at the empty mask with ceiling 0: the empty product
is 1, which strictly exceeds the ceiling 0, yet `compute_mask_size` returns
`some 1` because the guard runs only before each multiplication and an empty
mask has none. -/
theorem claim_C1_cex :
    ¬(compute_mask_size [] 0 = none ↔ 0 < mask_product []) := by
  decide

/-- C1 (amended): for every mask and ceiling, if the mask is non-empty or
the ceiling is at least 1, `compute_mask_size` returns `none` exactly when
the true product of the per-position cardinalities strictly exceeds the
ceiling, and otherwise returns exactly that product computed in exact
integer arithmetic. -/
theorem claim_C1 (mask : Mask) (M : Nat) (h : mask ≠ [] ∨ 1 ≤ M) :
    compute_mask_size mask M =
      if mask_product mask ≤ M then some (mask_product mask) else none :=
  compute_mask_size_exact_form mask M h

/-- C1 witness: the mask "ullllulllll" with ceiling `usize::MAX` yields
`some 3670344486987776`, by the amended theorem. -/
theorem claim_C1_witness :
    (exampleMask ≠ [] ∨ 1 ≤ 2 ^ 64 - 1) ∧
      compute_mask_size exampleMask (2 ^ 64 - 1) = some 3670344486987776 := by
  refine ⟨Or.inl (by decide), ?_⟩
  rw [claim_C1 exampleMask (2 ^ 64 - 1) (Or.inl (by decide))]
  decide

/-- C4: for every word whose characters all lie in the four-class alphabet,
`generate_mask` succeeds, the mask has the same length as the word, and the
symbol at each position is the class of the word's character there. -/
theorem claim_C4 (w : List Char) (h : ∀ c ∈ w, in_alphabet c = true) :
    ∃ m, generate_mask w = Except.ok m ∧ m.length = w.length ∧
      ∀ (i : Nat) (hw : i < w.length) (hm : i < m.length),
        classifyChar (w.get ⟨i, hw⟩) = some (m.get ⟨i, hm⟩) := by
  induction w with
  | nil => exact ⟨[], rfl, rfl, fun i hw _ => absurd hw (by simp)⟩
  | cons c rest ih =>
    obtain ⟨sym, hsym⟩ :=
      classifyChar_isSome_of_in_alphabet (h c (List.mem_cons_self c rest))
    obtain ⟨m, hm, hlen, hpos⟩ := ih fun x hx => h x (List.mem_cons_of_mem _ hx)
    refine ⟨sym :: m, ?_, by simp [hlen], ?_⟩
    · simp only [generate_mask, hsym, hm]
    · intro i hw hm2
      cases i with
      | zero => simpa using hsym
      | succ n => simpa using hpos n (by simpa using hw) (by simpa using hm2)

/-- C4 witness at the word "Hel0!". -/
theorem claim_C4_witness :
    (∀ c ∈ "Hel0!".toList, in_alphabet c = true) ∧
      ∃ m, generate_mask "Hel0!".toList = Except.ok m ∧
        m.length = "Hel0!".toList.length ∧
        ∀ (i : Nat) (hw : i < "Hel0!".toList.length) (hm : i < m.length),
          classifyChar ("Hel0!".toList.get ⟨i, hw⟩) = some (m.get ⟨i, hm⟩) :=
  ⟨by decide, claim_C4 _ (by decide)⟩

/-- C5: for every word that splits as valid prefix, first invalid character,
arbitrary tail, `generate_mask` fails with `InvalidCharacter` carrying
exactly that character; the result does not depend on the tail, so no
character after the offending one is examined, and no mask is produced. -/
theorem claim_C5 (w1 : List Char) (bad : Char) (w2 : List Char)
    (h1 : ∀ c ∈ w1, in_alphabet c = true) (h2 : in_alphabet bad = false) :
    generate_mask (w1 ++ bad :: w2) =
      Except.error (MaskError.InvalidCharacter bad) := by
  induction w1 with
  | nil =>
    have hb : classifyChar bad = none := (classifyChar_eq_none_iff bad).mpr h2
    simp only [List.nil_append, generate_mask, hb]
  | cons c rest ih =>
    obtain ⟨sym, hsym⟩ :=
      classifyChar_isSome_of_in_alphabet (h1 c (List.mem_cons_self c rest))
    have ih2 := ih fun x hx => h1 x (List.mem_cons_of_mem _ hx)
    simp only [List.cons_append, generate_mask, hsym, List.append_eq, ih2]

/-- C5 witness: "ab" followed by a tab character and "zz". -/
theorem claim_C5_witness :
    (∀ c ∈ "ab".toList, in_alphabet c = true) ∧
      in_alphabet (Char.ofNat 9) = false ∧
      generate_mask ("ab".toList ++ Char.ofNat 9 :: "zz".toList) =
        Except.error (MaskError.InvalidCharacter (Char.ofNat 9)) :=
  ⟨by decide, by decide, claim_C5 _ _ _ (by decide) (by decide)⟩

/-- C6: aggregating a list of successfully read words yields a map whose
count at each non-empty mask is the number of words classifying to that
mask (words failing classification contribute nothing), and the empty mask
is never a key of the map. -/
theorem claim_C6 (words : List (List Char)) (mask : Mask) (h : mask ≠ []) :
    ∃ m, generate_masks_from_bufreader (words.map Except.ok) = Except.ok m ∧
      countOf m mask =
        words.countP (fun w => decide (generate_mask w = Except.ok mask)) ∧
      lookup m [] = none := by
  refine ⟨words.foldl aggWord [], generateMasksAux_ok words [], ?_, ?_⟩
  · rw [countOf_foldl mask h words []]
    simp [countOf, lookup]
  · rw [lookup_nil_foldl words []]
    rfl

/-- C6 witness: two "Hello"s, one "x", one empty word; the mask "ullll" is
counted twice and the empty mask is absent. -/
theorem claim_C6_witness :
    ([MaskSym.u, MaskSym.l, MaskSym.l, MaskSym.l, MaskSym.l] ≠ ([] : Mask)) ∧
      ∃ m, generate_masks_from_bufreader
            (["Hello".toList, "Hello".toList, "x".toList, "".toList].map Except.ok) =
          Except.ok m ∧
        countOf m [MaskSym.u, MaskSym.l, MaskSym.l, MaskSym.l, MaskSym.l] =
          ["Hello".toList, "Hello".toList, "x".toList, "".toList].countP
            (fun w => decide (generate_mask w =
              Except.ok [MaskSym.u, MaskSym.l, MaskSym.l, MaskSym.l, MaskSym.l])) ∧
        lookup m [] = none :=
  ⟨by decide, claim_C6 _ _ (by decide)⟩

theorem generateMasksAux_error (e : IoError)
    (rest : List (Except IoError (List Char))) :
    ∀ (good : List (List Char)) (acc : MaskMap),
      generateMasksAux acc (good.map Except.ok ++ Except.error e :: rest) =
        Except.error e := by
  intro good
  induction good with
  | nil => intro acc; rfl
  | cons w ws ih => intro acc; exact ih (aggWord acc w)

/-- C7: when the line source yields an error after a prefix of good lines,
the aggregator returns exactly that first read error; the result does not
depend on what follows the error, so no further line is consumed and no
partial map is returned. -/
theorem claim_C7 (good : List (List Char)) (e : IoError)
    (rest : List (Except IoError (List Char))) :
    generate_masks_from_bufreader (good.map Except.ok ++ Except.error e :: rest) =
      Except.error e :=
  generateMasksAux_error e rest good []

/-- C2: any successful `parse_file` result satisfies the budget: the used
total is the sum of the selected sizes and never exceeds the budget, and
with budget 0 the selection is empty and the used total is 0. -/
theorem claim_C2 (lines : List (Except IoError (List Char))) (M : Nat)
    (sel : List ComputedMask) (used : Nat)
    (h : parse_file lines M = Except.ok (sel, used)) :
    used = (sel.map ComputedMask.size).sum ∧ used ≤ M ∧
      (M = 0 → sel = [] ∧ used = 0) := by
  obtain ⟨m, _, hsel⟩ := parse_file_ok h
  have h1 : sel = (budget_filter M (sort_masks m M) 0).1 := by rw [← hsel]
  have h2 : used = (budget_filter M (sort_masks m M) 0).2 := by rw [← hsel]
  refine ⟨?_, ?_, ?_⟩
  · rw [h2, h1, budget_filter_sum]
    simp
  · rw [h2]
    exact budget_filter_used_le M _ 0 (Nat.zero_le M)
  · intro hM
    subst hM
    have hz : budget_filter 0 (sort_masks m 0) 0 = ([], 0) :=
      budget_filter_zero_budget fun cm hcm => sort_masks_size_pos hcm
    exact ⟨by rw [h1, hz], by rw [h2, hz]⟩

/-- C2 witness: one word "Hi" with budget 0 selects nothing and uses 0. -/
theorem claim_C2_witness :
    parse_file [Except.ok "Hi".toList] 0 = Except.ok ([], 0) ∧
      ((0 : Nat) = (([] : List ComputedMask).map ComputedMask.size).sum ∧
        (0 : Nat) ≤ 0 ∧
        ((0 : Nat) = 0 → ([] : List ComputedMask) = [] ∧ (0 : Nat) = 0)) :=
  ⟨by decide, claim_C2 [Except.ok "Hi".toList] 0 [] 0 (by decide)⟩

/-- C3: the selection step of `parse_file` is exactly the single-pass greedy
first-fit over the ranked sequence described by the spec (append a candidate
exactly when `used + size ≤ budget`, keep walking past misses), and the
selection is a subsequence of the ranked sequence, preserving its order. -/
theorem claim_C3 (lines : List (Except IoError (List Char))) (M : Nat)
    (sel : List ComputedMask) (used : Nat)
    (h : parse_file lines M = Except.ok (sel, used)) :
    ∃ m, generate_masks_from_bufreader lines = Except.ok m ∧
      (sel, used) = greedySelectSpec M (sort_masks m M) 0 ∧
      List.Sublist sel (sort_masks m M) := by
  obtain ⟨m, hg, hsel⟩ := parse_file_ok h
  refine ⟨m, hg, ?_, ?_⟩
  · rw [hsel, budget_filter_eq_greedy M _ 0 (Nat.zero_le M)]
  · have h1 : sel = (budget_filter M (sort_masks m M) 0).1 := by rw [← hsel]
    rw [h1]
    exact budget_filter_fst_sublist M _ 0

/-- C3 witness: one word "0" (mask "d", size 10) with budget 100. -/
theorem claim_C3_witness :
    parse_file [Except.ok "0".toList] 100 =
        Except.ok ([⟨[MaskSym.d], 10, 1, compute_mask_cost 10 1⟩], 10) ∧
      ∃ m, generate_masks_from_bufreader [Except.ok "0".toList] = Except.ok m ∧
        (([(⟨[MaskSym.d], 10, 1, compute_mask_cost 10 1⟩ : ComputedMask)], 10) =
          greedySelectSpec 100 (sort_masks m 100) 0) ∧
        List.Sublist [(⟨[MaskSym.d], 10, 1, compute_mask_cost 10 1⟩ : ComputedMask)]
          (sort_masks m 100) :=
  ⟨by decide, claim_C3 [Except.ok "0".toList] 100
    [⟨[MaskSym.d], 10, 1, compute_mask_cost 10 1⟩] 10 (by decide)⟩

/-- C8: the sequence returned by `sort_masks` is sorted in descending order
of cost: at any two positions i < j of the output, the cost at i is at least
the cost at j. Nothing is claimed about the relative order of equal costs. -/
theorem claim_C8 (m : MaskMap) (M : Nat) (i j : Nat)
    (hi : i < (sort_masks m M).length) (hj : j < (sort_masks m M).length)
    (hij : i < j) :
    ((sort_masks m M).get ⟨j, hj⟩).cost ≤ ((sort_masks m M).get ⟨i, hi⟩).cost :=
  (sort_masks_sorted_pairwise m M).rel_get_of_lt (Fin.mk_lt_mk.mpr hij)

/-- C8 witness: a two-entry map where the "d" mask (cost 5/10) outranks the
"l" mask (cost 1/26). -/
theorem claim_C8_witness :
    0 < (sort_masks [([MaskSym.l], 1), ([MaskSym.d], 5)] 100).length ∧
      1 < (sort_masks [([MaskSym.l], 1), ([MaskSym.d], 5)] 100).length ∧
      (0 : Nat) < 1 ∧
      ((sort_masks [([MaskSym.l], 1), ([MaskSym.d], 5)] 100).get
          ⟨1, by decide⟩).cost ≤
        ((sort_masks [([MaskSym.l], 1), ([MaskSym.d], 5)] 100).get
          ⟨0, by decide⟩).cost :=
  ⟨by decide, by decide, by decide,
    claim_C8 [([MaskSym.l], 1), ([MaskSym.d], 5)] 100 0 1 (by decide) (by decide)
      (by decide)⟩

/-- C9: every record ranked by `sort_masks` — hence every cost value the
sort compares — has size at least 1, so its cost, a quotient with a nonzero
denominator, is a well-defined non-NaN number and the fail-fast `unwrap` of
the comparison can never hit the `None` branch. -/
theorem claim_C9 (m : MaskMap) (M : Nat) (cm : ComputedMask)
    (h : cm ∈ sort_masks m M) :
    1 ≤ cm.size ∧ ¬f64_div_is_nan cm.count cm.size := by
  have h1 := sort_masks_size_pos h
  refine ⟨h1, fun hn => ?_⟩
  rw [hn.2] at h1
  omega

/-- C9 witness at a one-entry map. -/
theorem claim_C9_witness :
    (⟨[MaskSym.d], 10, 3, compute_mask_cost 10 3⟩ : ComputedMask) ∈
        sort_masks [([MaskSym.d], 3)] 100 ∧
      (1 ≤ (⟨[MaskSym.d], 10, 3, compute_mask_cost 10 3⟩ : ComputedMask).size ∧
        ¬f64_div_is_nan
          (⟨[MaskSym.d], 10, 3, compute_mask_cost 10 3⟩ : ComputedMask).count
          (⟨[MaskSym.d], 10, 3, compute_mask_cost 10 3⟩ : ComputedMask).size) :=
  ⟨by decide, claim_C9 [([MaskSym.d], 3)] 100
    ⟨[MaskSym.d], 10, 3, compute_mask_cost 10 3⟩ (by decide)⟩

/-- C10: `parse_file` uses its one `maximum_size` argument both as the
ranking ceiling and as the selection budget, so: every ranked mask's size is
at most the budget; the running total stays within the budget at every step,
making the `usize` subtraction `maximum_size - used_space` underflow-free
(the checked variant `budget_filter_safe` never hits its `none` branch); and
whenever the ranked sequence is non-empty its first element is selected. -/
theorem claim_C10 (words : List (List Char)) (M : Nat)
    (sel : List ComputedMask) (used : Nat)
    (h : parse_file (words.map Except.ok) M = Except.ok (sel, used)) :
    ∃ m, generate_masks_from_bufreader (words.map Except.ok) = Except.ok m ∧
      (∀ cm ∈ sort_masks m M, cm.size ≤ M) ∧
      budget_filter_safe M (sort_masks m M) 0 = some (sel, used) ∧
      (∀ cm rest, sort_masks m M = cm :: rest → sel.head? = some cm) := by
  obtain ⟨m, hg, hsel⟩ := parse_file_ok h
  have hgm : generate_masks_from_bufreader (words.map Except.ok) =
      Except.ok (words.foldl aggWord []) := generateMasksAux_ok words []
  have hm : m = words.foldl aggWord [] := by
    rw [hg] at hgm
    injection hgm
  have hkeys : ∀ p ∈ m, p.1 ≠ ([] : Mask) := by
    rw [hm]
    exact keys_foldl words [] (by simp)
  have hsize : ∀ cm ∈ sort_masks m M, cm.size ≤ M := by
    intro cm hcm
    obtain ⟨p, hp, hcs, _, _⟩ := mem_sort_masks hcm
    exact compute_mask_size_le_ceiling (hkeys p hp) hcs
  refine ⟨m, hg, hsize, ?_, ?_⟩
  · rw [budget_filter_safe_eq M _ 0 (Nat.zero_le M), ← hsel]
  · intro cm rest hsm
    have hcm : cm.size ≤ M := hsize cm (by rw [hsm]; exact List.mem_cons_self cm rest)
    have h1 : sel = (budget_filter M (sort_masks m M) 0).1 := by rw [← hsel]
    rw [h1, hsm]
    simp only [budget_filter, if_pos (show cm.size ≤ M - 0 by omega)]
    rfl

/-- C10 witness: one word "A" (mask "u", size 26) with limit 50: the first
ranked mask is selected and the checked selection agrees. -/
theorem claim_C10_witness :
    parse_file (["A".toList].map Except.ok) 50 =
        Except.ok ([⟨[MaskSym.u], 26, 1, compute_mask_cost 26 1⟩], 26) ∧
      ∃ m, generate_masks_from_bufreader (["A".toList].map Except.ok) =
          Except.ok m ∧
        (∀ cm ∈ sort_masks m 50, cm.size ≤ 50) ∧
        budget_filter_safe 50 (sort_masks m 50) 0 =
          some ([⟨[MaskSym.u], 26, 1, compute_mask_cost 26 1⟩], 26) ∧
        (∀ cm rest, sort_masks m 50 = cm :: rest →
          ([(⟨[MaskSym.u], 26, 1, compute_mask_cost 26 1⟩ : ComputedMask)] :
            List ComputedMask).head? = some cm) :=
  ⟨by decide, claim_C10 ["A".toList] 50
    [⟨[MaskSym.u], 26, 1, compute_mask_cost 26 1⟩] 26 (by decide)⟩
